import Mathlib

/-!
Verification of the confusion-matrix based multi-class Dice coefficient
implemented in the repository's metric notebook (`ConfusionMatrix`,
`ConfusionMatrixBasedMetric`, `DiceCoefficient`).

Modelling conventions:
* pixel-label arrays are modelled flattened, as `List Int` (the source flattens
  them before counting; numpy advanced indexing on the flattened view is
  modelled by positional indexing with an explicit bounds check, as numpy
  raises `IndexError` when a gathered index is out of bounds);
* the count matrix `self.conf` is a total function `Nat → Nat → Nat`; only
  indices below `num_classes` are ever written by `add`;
* floating-point arithmetic is modelled exactly over `ℚ`; the `0/0 = NaN`
  produced under `np.errstate(divide, invalid)` is modelled as `Option ℚ`
  with `none` standing for NaN, and `np.nanmean` skips the `none` entries;
* `DiceCoefficient.value` returns, besides the pair `(mdice, dice)` of the
  source, the post-call state of the metric: with `normalized=False` the
  source's `self.conf_matrix.value()` returns the internal array itself, so
  the ignore-index zeroing writes through to the accumulated counts.
-/

namespace DiceMetric

/-- Bin index assigned by `np.histogramdd` with `n` equal-width bins over the
range `[0, n]` to the integer sample `x`: bin `x` for `0 ≤ x < n`, the right
edge `x = n` falls into the last bin `n - 1`, and a sample outside `[0, n]`
is not counted at all (`none`). -/
def binIndex (n : Nat) (x : Int) : Option Nat :=
  if n = 0 then none
  else if x < 0 ∨ (n : Int) < x then none
  else if x = (n : Int) then some (n - 1)
  else some x.toNat

/-- The element-wise mask `(target >= 0) & (target < self.num_classes)` used by
`ConfusionMatrix.add` to select the valid pixels. -/
def targetValid (n : Nat) (x : Int) : Bool :=
  decide (0 ≤ x) && decide (x < (n : Int))

/-- Cell `(t, p)` of the 2-d histogram `np.histogramdd(replace_indices, bins=(n, n),
range=[(0, n), (0, n)])` over the list of `(target, predicted)` pairs.
`histogramdd` drops a sample whenever either coordinate falls outside the range. -/
def histCount (n : Nat) (pairs : List (Int × Int)) (t p : Nat) : Nat :=
  (pairs.filter (fun tp => binIndex n tp.1 == some t && binIndex n tp.2 == some p)).length

/-- State of the source class `ConfusionMatrix`: the fixed `num_classes`, the
`normalized` flag and the accumulated integer count matrix `self.conf`
(indexed `conf[target_class][predicted_class]`). -/
structure ConfusionMatrix where
  num_classes : Nat
  normalized : Bool
  conf : Nat → Nat → Nat

/-- Constructor `ConfusionMatrix.__init__`: stores the arguments and resets the counts to zero. -/
def ConfusionMatrix.init (num_classes : Nat) (normalized : Bool) : ConfusionMatrix :=
  ⟨num_classes, normalized, fun _ _ => 0⟩

/-- Method `ConfusionMatrix.reset`: `self.conf.fill(0)`. -/
def ConfusionMatrix.reset (m : ConfusionMatrix) : ConfusionMatrix :=
  { m with conf := fun _ _ => 0 }

/-- The pure counting core of `ConfusionMatrix.add`: accumulate the 2-d histogram
of the given `(target, predicted)` pairs into the count matrix
(`self.conf += conf.astype(np.int32)`). -/
def ConfusionMatrix.addPairs (m : ConfusionMatrix) (pairs : List (Int × Int)) :
    ConfusionMatrix :=
  { m with conf := fun t p => m.conf t p + histCount m.num_classes pairs t p }

/-- Method `ConfusionMatrix.add(pred, target)` over flattened arrays: select the indices
whose target label is valid (`np.where((target >= 0) & (target < num_classes))`),
gather `pred` and `target` at those indices — numpy raises `IndexError` when a
gathered index is out of bounds for `pred` — and accumulate the 2-d histogram of
the resulting `(target, pred)` pairs. -/
def ConfusionMatrix.add (m : ConfusionMatrix) (pred target : List Int) :
    Except String ConfusionMatrix :=
  let validIdx := (List.range target.length).filter
    (fun i => targetValid m.num_classes (target.getD i 0))
  if validIdx.all (fun i => i < pred.length) then
    .ok (m.addPairs (validIdx.map (fun i => (target.getD i 0, pred.getD i 0))))
  else
    .error "IndexError"

/-- Epsilon used by `conf.sum(1).clip(min=1e-12)` in `ConfusionMatrix.value`. -/
def epsNorm : ℚ := 1 / 1000000000000

/-- Sum of row `t` of the raw count matrix (`self.conf.sum(1)`). -/
def rowSumNat (m : ConfusionMatrix) (t : Nat) : Nat :=
  ∑ p ∈ Finset.range m.num_classes, m.conf t p

/-- The normalized matrix returned by `ConfusionMatrix.value` when
`self.normalized` is true: each row of the counts, cast to float, divided by
`max(row_sum, 1e-12)`. -/
def ConfusionMatrix.valueNorm (m : ConfusionMatrix) (t p : Nat) : ℚ :=
  (m.conf t p : ℚ) / max ((rowSumNat m t : ℚ)) epsNorm

/-- Sum of every cell of the raw count matrix. -/
def cellSum (m : ConfusionMatrix) : Nat :=
  ∑ t ∈ Finset.range m.num_classes, ∑ p ∈ Finset.range m.num_classes, m.conf t p

/-- Element-wise sum of two count matrices: the merge operation the spec
prescribes for combining independently accumulated confusion matrices. -/
def ConfusionMatrix.merge (a b : ConfusionMatrix) : ConfusionMatrix :=
  { a with conf := fun t p => a.conf t p + b.conf t p }

/-- A sequence of `add` calls, each with its `(pred, target)` pair of flattened
arrays; the first raised error aborts the sequence. -/
def runAdds (m : ConfusionMatrix) : List (List Int × List Int) → Except String ConfusionMatrix
  | [] => .ok m
  | b :: bs =>
    match m.add b.1 b.2 with
    | .ok m2 => runAdds m2 bs
    | .error e => .error e

/-- A Python value passed as the `ignore_indices` constructor argument:
`None`, an `int`, a non-iterable non-integer scalar (e.g. a `float`), or an
iterable of arbitrary elements. -/
inductive PyVal where
  | pyNone : PyVal
  | pyInt (i : Int) : PyVal
  | pyFloat (q : ℚ) : PyVal
  | pyIter (elems : List PyVal) : PyVal

/-- The `ignore_indices` handling of `ConfusionMatrixBasedMetric.__init__`:
`None` is kept; an `int` is wrapped into a one-element tuple; anything else is
passed to `tuple(...)`, which succeeds on every iterable (whatever its elements
are) and raises `TypeError` — converted to `ValueError` — on a non-iterable. -/
def parseIgnoreIndices : PyVal → Except String (Option (List PyVal))
  | .pyNone => .ok none
  | .pyInt i => .ok (some [.pyInt i])
  | .pyIter elems => .ok (some elems)
  | .pyFloat _ => .error "ignore_indices must be an int or iterable"

/-- State of `ConfusionMatrixBasedMetric` (and of its subclass `DiceCoefficient`,
which adds no state, only the `value` method): the owned `ConfusionMatrix`, the
`reduced_probs` flag and the parsed `ignore_indices` tuple.  The parsed tuple is
kept here in its well-typed form, a list of class indices. -/
structure ConfusionMatrixBasedMetric where
  conf_matrix : ConfusionMatrix
  reduced_probs : Bool
  ignore_indices : Option (List Nat)

/-- Class `DiceCoefficient` inherits everything from `ConfusionMatrixBasedMetric` and
only adds the `value` method. -/
abbrev DiceCoefficient := ConfusionMatrixBasedMetric

/-- Index of the first maximal entry of a per-pixel class-score vector
(`argmax(dim=1)` applied pixel-wise). -/
def argmaxIdx : List ℚ → Nat
  | [] => 0
  | x :: xs => go 1 0 x xs
where
  go (i bi : Nat) (bv : ℚ) : List ℚ → Nat
    | [] => bi
    | y :: ys => if bv < y then go (i + 1) i y ys else go (i + 1) bi bv ys

/-- A prediction argument to `ConfusionMatrixBasedMetric.add`: either a tensor of
already-discrete class labels, or a tensor of per-class scores carrying one
score vector per pixel (the class dimension `dim=1`, modelled pixel-major). -/
inductive PredTensor where
  | discrete (labels : List Int) : PredTensor
  | scored (rows : List (List ℚ)) : PredTensor

/-- Reduction `pred.argmax(dim=1)`: reduce per-pixel score vectors to the index of their
first maximal entry.  (The source only ever applies this to a score tensor;
on an already-discrete tensor `argmax(dim=1)` would reduce a spatial
dimension, a path no caller exercises and no claim refers to.) -/
def PredTensor.argmaxReduce : PredTensor → List Int
  | .scored rows => rows.map (fun r => ((argmaxIdx r : Nat) : Int))
  | .discrete xs => xs

/-- Method `ConfusionMatrixBasedMetric.add(pred, target)`: when `reduced_probs` is
false, `pred` is first reduced by `pred.argmax(dim=1)`; then the result is
delegated to `self.conf_matrix.add`.  Passing a score tensor while
`reduced_probs=True` violates the documented caller contract: the source would
feed the raw probability tensor, whose rank exceeds the target's, into numpy
advanced indexing, which fails; it is modelled as that indexing error. -/
def ConfusionMatrixBasedMetric.add (m : ConfusionMatrixBasedMetric)
    (pred : PredTensor) (target : List Int) : Except String ConfusionMatrixBasedMetric :=
  let predL : Option (List Int) :=
    if m.reduced_probs then
      match pred with
      | .discrete xs => some xs
      | .scored _ => none
    else
      some pred.argmaxReduce
  match predL with
  | none => .error "IndexError"
  | some xs =>
    match m.conf_matrix.add xs target with
    | .ok cm => .ok { m with conf_matrix := cm }
    | .error e => .error e

/-- Method `ConfusionMatrixBasedMetric.reset`: delegates to the confusion matrix. -/
def ConfusionMatrixBasedMetric.reset (m : ConfusionMatrixBasedMetric) :
    ConfusionMatrixBasedMetric :=
  { m with conf_matrix := m.conf_matrix.reset }

/-- The matrix `self.conf_matrix.value()` that `DiceCoefficient.value` starts
from: the raw counts cast to rational exactly when `normalized` is false,
otherwise the row-normalized float matrix. -/
def workBase (m : ConfusionMatrixBasedMetric) (t p : Nat) : ℚ :=
  if m.conf_matrix.normalized then m.conf_matrix.valueNorm t p
  else (m.conf_matrix.conf t p : ℚ)

/-- The matrix `conf_matrix` that `DiceCoefficient.value` works on:
`self.conf_matrix.value()`, with the rows and columns of the ignore indices
set to 0 when `ignore_indices` is set. -/
def workMatrix (m : ConfusionMatrixBasedMetric) (t p : Nat) : ℚ :=
  match m.ignore_indices with
  | none => workBase m t p
  | some ign => if t ∈ ign ∨ p ∈ ign then 0 else workBase m t p

/-- Source line `true_positive = np.diag(conf_matrix)` at class `c`. -/
def true_positive (m : ConfusionMatrixBasedMetric) (c : Nat) : ℚ :=
  workMatrix m c c

/-- Source line `false_positive = np.sum(conf_matrix, 0) - true_positive` at class `c`
(column sum minus the diagonal). -/
def false_positive (m : ConfusionMatrixBasedMetric) (c : Nat) : ℚ :=
  (∑ t ∈ Finset.range m.conf_matrix.num_classes, workMatrix m t c) - true_positive m c

/-- Source line `false_negative = np.sum(conf_matrix, 1) - true_positive` at class `c`
(row sum minus the diagonal). -/
def false_negative (m : ConfusionMatrixBasedMetric) (c : Nat) : ℚ :=
  (∑ p ∈ Finset.range m.conf_matrix.num_classes, workMatrix m c p) - true_positive m c

/-- Source line `dice = 2 * tp / (2 * tp + fp + fn)`
at class `c`, under `np.errstate(divide, invalid)`: a zero denominator yields
the floating NaN, modelled as `none`. -/
def diceAt (m : ConfusionMatrixBasedMetric) (c : Nat) : Option ℚ :=
  let denom := 2 * true_positive m c + false_positive m c + false_negative m c
  if denom = 0 then none else some (2 * true_positive m c / denom)

/-- The per-class `dice` array returned by `DiceCoefficient.value`. -/
def dicePerClass (m : ConfusionMatrixBasedMetric) : List (Option ℚ) :=
  (List.range m.conf_matrix.num_classes).map (diceAt m)

/-- Model of `np.delete(dice, ignore_indices)`: drop the entries at the listed positions. -/
def deleteIdxs (l : List (Option ℚ)) (ign : List Nat) : List (Option ℚ) :=
  ((List.range l.length).filter (fun i => decide (i ∉ ign))).map (fun i => l.getD i none)

/-- Source value `dice_valid_cls`: the per-class dice values with the ignored classes removed
(`np.delete`) when `ignore_indices` is set, the whole array otherwise. -/
def diceValidCls (m : ConfusionMatrixBasedMetric) : List (Option ℚ) :=
  match m.ignore_indices with
  | none => dicePerClass m
  | some ign => deleteIdxs (dicePerClass m) ign

/-- Model of `np.nanmean`: the arithmetic mean of the non-NaN entries; an all-NaN (or
empty) input yields NaN itself, modelled as `none`. -/
def nanmean (l : List (Option ℚ)) : Option ℚ :=
  if (l.filterMap id).length = 0 then none
  else some ((l.filterMap id).sum / ((l.filterMap id).length : ℚ))

/-- Method `DiceCoefficient.value()`: returns `(mdice, dice)` and, additionally, the
post-call state of the metric.  When `ignore_indices` is set and `normalized`
is false, `self.conf_matrix.value()` returns the internal count array itself,
so `conf_matrix[:, ignore] = 0` and `conf_matrix[ignore, :] = 0` write through
to the accumulated counts; in every other case the counts are untouched. -/
def DiceCoefficient.value (m : ConfusionMatrixBasedMetric) :
    Option ℚ × List (Option ℚ) × ConfusionMatrixBasedMetric :=
  let mdice := nanmean (diceValidCls m)
  let conf2 : Nat → Nat → Nat :=
    match m.ignore_indices, m.conf_matrix.normalized with
    | some ign, false =>
      fun t p => if t ∈ ign ∨ p ∈ ign then 0 else m.conf_matrix.conf t p
    | _, _ => m.conf_matrix.conf
  (mdice, dicePerClass m, { m with conf_matrix := { m.conf_matrix with conf := conf2 } })

/-! ### Supporting lemmas -/

lemma binIndex_of_valid {n : Nat} {x : Int} (h0 : 0 ≤ x) (h1 : x < (n : Int)) :
    binIndex n x = some x.toNat := by
  have hn : n ≠ 0 := by
    rcases Nat.eq_zero_or_pos n with h | h
    · subst h; omega
    · omega
  unfold binIndex
  rw [if_neg hn, if_neg (by omega), if_neg (by omega)]

lemma binIndex_lt {n a : Nat} {x : Int} (h : binIndex n x = some a) : a < n := by
  unfold binIndex at h
  split at h
  · exact absurd h (by simp)
  · split at h
    · exact absurd h (by simp)
    · split at h
      · simp only [Option.some.injEq] at h
        omega
      · simp only [Option.some.injEq] at h
        subst h
        omega

lemma binIndex_isSome_iff {n : Nat} {x : Int} :
    (binIndex n x).isSome = true ↔ (n ≠ 0 ∧ 0 ≤ x ∧ x ≤ (n : Int)) := by
  unfold binIndex
  split
  · simp; omega
  · split
    · simp; omega
    · split <;> simp <;> omega

lemma targetValid_eq_true_iff {n : Nat} {x : Int} :
    targetValid n x = true ↔ (0 ≤ x ∧ x < (n : Int)) := by
  simp [targetValid]

lemma histCount_nil (n : Nat) (t p : Nat) : histCount n [] t p = 0 := rfl

lemma histCount_cons (n : Nat) (x : Int × Int) (l : List (Int × Int)) (t p : Nat) :
    histCount n (x :: l) t p =
      (if binIndex n x.1 = some t ∧ binIndex n x.2 = some p then 1 else 0)
        + histCount n l t p := by
  unfold histCount
  rw [List.filter_cons]
  by_cases h : binIndex n x.1 = some t ∧ binIndex n x.2 = some p
  · rw [if_pos h, if_pos (by simp [h.1, h.2])]
    simp [Nat.add_comm]
  · rw [if_neg h, if_neg ?_, Nat.zero_add]
    intro hc
    apply h
    constructor
    · have := (Bool.and_eq_true _ _).mp hc |>.1
      exact beq_iff_eq.mp this
    · have := (Bool.and_eq_true _ _).mp hc |>.2
      exact beq_iff_eq.mp this

/-- The `(target, pred)` pairs that survive the valid-target filter of
`ConfusionMatrix.add`, for same-length (or truncated) flattened inputs. -/
def gatherPairs (n : Nat) (pred target : List Int) : List (Int × Int) :=
  (target.zip pred).filter (fun tp => targetValid n tp.1)

lemma gather_eq_zip_filter (q : Int → Bool) (target : List Int) :
    ∀ pred : List Int, target.length ≤ pred.length →
      ((List.range target.length).filter (fun i => q (target.getD i 0))).map
          (fun i => (target.getD i 0, pred.getD i 0))
        = (target.zip pred).filter (fun tp => q tp.1) := by
  induction target with
  | nil => intro pred _; simp
  | cons x ts ih =>
    intro pred hlen
    cases pred with
    | nil => simp at hlen
    | cons y ps =>
      have h2 : ts.length ≤ ps.length := by
        simpa using hlen
      have ihy := ih ps h2
      by_cases hq : q x
      · simp only [List.length_cons, List.range_succ_eq_map, List.filter_cons,
          List.getD_cons_zero, hq, if_true, List.map_cons, List.filter_map,
          List.map_map, Function.comp, Nat.succ_eq_add_one, List.getD_cons_succ,
          List.zip_cons_cons]
        exact congrArg (List.cons (x, y)) ihy
      · simp only [List.length_cons, List.range_succ_eq_map, List.filter_cons,
          List.getD_cons_zero, hq, if_false, List.filter_map, List.map_map,
          Function.comp, Nat.succ_eq_add_one, List.getD_cons_succ,
          List.zip_cons_cons, Bool.false_eq_true]
        exact ihy

/-- When `pred` is at least as long as `target`, every gathered index is in
bounds, `add` completes normally, and the accumulated pairs are exactly the
zip of `target` and `pred` restricted to the valid targets. -/
lemma add_ok_of_le (m : ConfusionMatrix) (pred target : List Int)
    (h : target.length ≤ pred.length) :
    m.add pred target = .ok (m.addPairs (gatherPairs m.num_classes pred target)) := by
  have hall : ((List.range target.length).filter
      (fun i => targetValid m.num_classes (target.getD i 0))).all
        (fun i => i < pred.length) = true := by
    rw [List.all_eq_true]
    intro i hi
    have h1 : i ∈ List.range target.length := List.mem_of_mem_filter hi
    have h2 := List.mem_range.mp h1
    exact decide_eq_true (by omega)
  unfold ConfusionMatrix.add
  simp only [hall, if_true]
  rw [gather_eq_zip_filter (targetValid m.num_classes) target pred h]
  rfl

/-- Lemma: `add` raises `IndexError` exactly when some pixel with a valid target label
sits at a position that is out of bounds for `pred`. -/
lemma add_error_iff (m : ConfusionMatrix) (pred target : List Int) :
    (∃ e, m.add pred target = .error e)
      ↔ ∃ i, i < target.length ∧ targetValid m.num_classes (target.getD i 0) = true
          ∧ pred.length ≤ i := by
  unfold ConfusionMatrix.add
  by_cases hall : ((List.range target.length).filter
      (fun i => targetValid m.num_classes (target.getD i 0))).all
        (fun i => i < pred.length) = true
  · simp only [hall, if_true]
    constructor
    · rintro ⟨e, he⟩
      exact absurd he (by simp)
    · rintro ⟨i, hi, hv, hb⟩
      have := List.all_eq_true.mp hall i
        (List.mem_filter.mpr ⟨List.mem_range.mpr hi, hv⟩)
      have := of_decide_eq_true this
      omega
  · simp only [hall, if_false]
    constructor
    · rintro ⟨e, _⟩
      rw [List.all_eq_true] at hall
      push_neg at hall
      obtain ⟨i, hmem, hlt⟩ := hall
      have h1 := List.mem_filter.mp hmem
      refine ⟨i, List.mem_range.mp h1.1, h1.2, ?_⟩
      have : ¬ i < pred.length := by
        intro hc
        exact hlt (decide_eq_true hc)
      omega
    · rintro ⟨i, _, _, _⟩
      exact ⟨"IndexError", rfl⟩

lemma addPairs_num_classes (m : ConfusionMatrix) (pairs : List (Int × Int)) :
    (m.addPairs pairs).num_classes = m.num_classes := rfl

lemma addPairs_conf (m : ConfusionMatrix) (pairs : List (Int × Int)) (t p : Nat) :
    (m.addPairs pairs).conf t p = m.conf t p + histCount m.num_classes pairs t p := rfl

/-- Characterization of a whole sequence of successful `add` calls: every count
cell holds its initial value plus the summed histogram contributions of the
batches. -/
lemma runAdds_ok (bs : List (List Int × List Int)) :
    ∀ m : ConfusionMatrix, (∀ b ∈ bs, b.2.length ≤ b.1.length) →
      ∃ m2, runAdds m bs = .ok m2 ∧ m2.num_classes = m.num_classes
        ∧ m2.normalized = m.normalized
        ∧ ∀ t p, m2.conf t p = m.conf t p
            + (bs.map (fun b =>
                histCount m.num_classes (gatherPairs m.num_classes b.1 b.2) t p)).sum := by
  induction bs with
  | nil =>
    intro m _
    exact ⟨m, rfl, rfl, rfl, by simp⟩
  | cons b bs ih =>
    intro m h
    have hb : b.2.length ≤ b.1.length := h b (List.mem_cons_self b bs)
    have hrest : ∀ x ∈ bs, x.2.length ≤ x.1.length :=
      fun x hx => h x (List.mem_cons_of_mem b hx)
    obtain ⟨m2, hrun, hn, hnorm, hconf⟩ := ih (m.addPairs (gatherPairs m.num_classes b.1 b.2)) hrest
    refine ⟨m2, ?_, hn, hnorm, ?_⟩
    · show (match m.add b.1 b.2 with
        | .ok m2 => runAdds m2 bs
        | .error e => .error e) = .ok m2
      rw [add_ok_of_le m b.1 b.2 hb]
      exact hrun
    · intro t p
      rw [hconf t p, addPairs_conf, addPairs_num_classes, List.map_cons, List.sum_cons]
      omega

/-- Summing one indicator cell contribution of the 2-d histogram over the whole
matrix gives 1 exactly when both coordinates fall into some bin. -/
lemma sum_indicator_cells (n : Nat) (x : Int × Int) :
    (∑ t ∈ Finset.range n, ∑ p ∈ Finset.range n,
        (if binIndex n x.1 = some t ∧ binIndex n x.2 = some p then 1 else 0))
      = (if (binIndex n x.1).isSome && (binIndex n x.2).isSome then 1 else 0) := by
  rcases h1 : binIndex n x.1 with _ | a
  · simp [h1]
  · rcases h2 : binIndex n x.2 with _ | b
    · simp [h2]
    · have ha : a < n := binIndex_lt h1
      have hb : b < n := binIndex_lt h2
      simp only [Option.isSome_some, Bool.and_self, if_true, Option.some.injEq]
      have inner : ∀ t, (∑ p ∈ Finset.range n,
          if a = t ∧ b = p then (1 : ℕ) else 0) = if a = t then 1 else 0 := by
        intro t
        by_cases hat : a = t
        · simp only [hat, true_and]
          rw [Finset.sum_ite_eq]
          simp [Finset.mem_range.mpr hb]
        · simp [hat]
      rw [Finset.sum_congr rfl (fun t _ => inner t)]
      rw [Finset.sum_ite_eq]
      simp [Finset.mem_range.mpr ha]

/-- Summing every cell of the 2-d histogram counts exactly the pairs whose two
coordinates both fall into some bin. -/
lemma sum_cells_histCount (n : Nat) (pairs : List (Int × Int)) :
    (∑ t ∈ Finset.range n, ∑ p ∈ Finset.range n, histCount n pairs t p)
      = (pairs.filter (fun tp =>
          (binIndex n tp.1).isSome && (binIndex n tp.2).isSome)).length := by
  induction pairs with
  | nil => simp [histCount_nil]
  | cons x l ih =>
    have hsplit : ∀ t p, histCount n (x :: l) t p =
        (if binIndex n x.1 = some t ∧ binIndex n x.2 = some p then 1 else 0)
          + histCount n l t p := histCount_cons n x l
    calc (∑ t ∈ Finset.range n, ∑ p ∈ Finset.range n, histCount n (x :: l) t p)
        = (∑ t ∈ Finset.range n, ∑ p ∈ Finset.range n,
            ((if binIndex n x.1 = some t ∧ binIndex n x.2 = some p then 1 else 0)
              + histCount n l t p)) := by
          exact Finset.sum_congr rfl (fun t _ => Finset.sum_congr rfl (fun p _ => hsplit t p))
      _ = (∑ t ∈ Finset.range n, ∑ p ∈ Finset.range n,
            (if binIndex n x.1 = some t ∧ binIndex n x.2 = some p then 1 else 0))
          + (∑ t ∈ Finset.range n, ∑ p ∈ Finset.range n, histCount n l t p) := by
          rw [← Finset.sum_add_distrib]
          exact Finset.sum_congr rfl (fun t _ => Finset.sum_add_distrib)
      _ = (if (binIndex n x.1).isSome && (binIndex n x.2).isSome then 1 else 0)
          + (l.filter (fun tp =>
              (binIndex n tp.1).isSome && (binIndex n tp.2).isSome)).length := by
          rw [sum_indicator_cells, ih]
      _ = ((x :: l).filter (fun tp =>
              (binIndex n tp.1).isSome && (binIndex n tp.2).isSome)).length := by
          rw [List.filter_cons]
          by_cases hx : ((binIndex n x.1).isSome && (binIndex n x.2).isSome) = true
          · simp [hx, Nat.add_comm]
          · simp [hx]

/-- Number of `(target, pred)` pixel pairs of one batch whose target label lies
in `[0, num_classes)` and whose predicted label lies in `[0, num_classes]`
(the right edge of the last histogram bin being inclusive): these are exactly
the pairs the histogram records. -/
def countedPairs (n : Nat) (pred target : List Int) : Nat :=
  ((target.zip pred).filter (fun tp =>
    decide (0 ≤ tp.1) && decide (tp.1 < (n : Int))
      && decide (0 ≤ tp.2) && decide (tp.2 ≤ (n : Int)))).length

/-- Number of `(target, pred)` pixel pairs of one batch whose target label lies
in `[0, num_classes)`, with no condition on the predicted label: the count the
spec's invariant asserts for the matrix total. -/
def validTargetPairs (n : Nat) (pred target : List Int) : Nat :=
  ((target.zip pred).filter (fun tp => targetValid n tp.1)).length

lemma sum_sum_list {α : Type} (n : Nat) (bs : List α) (f : α → Nat → Nat → Nat) :
    (∑ t ∈ Finset.range n, ∑ p ∈ Finset.range n, (bs.map (fun b => f b t p)).sum)
      = (bs.map (fun b => ∑ t ∈ Finset.range n, ∑ p ∈ Finset.range n, f b t p)).sum := by
  induction bs with
  | nil => simp
  | cons b l ih =>
    simp only [List.map_cons, List.sum_cons]
    have h1 : ∀ t, (∑ p ∈ Finset.range n, (f b t p + (l.map (fun b => f b t p)).sum))
        = (∑ p ∈ Finset.range n, f b t p)
          + (∑ p ∈ Finset.range n, (l.map (fun b => f b t p)).sum) :=
      fun _ => Finset.sum_add_distrib
    rw [Finset.sum_congr rfl (fun t _ => h1 t), Finset.sum_add_distrib, ih]

/-- The histogram cells accumulated by one `add` call sum to exactly the number
of pairs with a valid target label and a predicted label in `[0, n]`. -/
lemma cells_gather_eq_counted (n : Nat) (pred target : List Int) :
    (∑ t ∈ Finset.range n, ∑ p ∈ Finset.range n,
        histCount n (gatherPairs n pred target) t p)
      = countedPairs n pred target := by
  rw [sum_cells_histCount]
  unfold gatherPairs countedPairs
  rw [List.filter_filter]
  apply congrArg List.length
  apply List.filter_congr
  intro tp _
  rw [Bool.eq_iff_iff]
  simp only [Bool.and_eq_true, decide_eq_true_eq, binIndex_isSome_iff, targetValid]
  omega

lemma binIndex_none_of_outside {n : Nat} {p : Int}
    (h : p < 0 ∨ (n : Int) < p) : binIndex n p = none := by
  by_cases hn : n = 0
  · simp [binIndex, hn]
  · simp [binIndex, hn, h]

lemma binIndex_right_edge {n : Nat} (hn : n ≠ 0) : binIndex n (n : Int) = some (n - 1) := by
  unfold binIndex
  rw [if_neg hn, if_neg (by omega), if_pos rfl]

/-! ### Claims -/

/-- C1 counterexample: with `num_classes = 1`, a single `add` whose only pixel
has the valid target label `0` but the predicted label `2` (outside `[0, 1]`)
leaves the matrix all zero, so the cell sum is `0` while the number of pixel
pairs with a valid target label is `1`: the sum does depend on the predicted
labels. -/
theorem c1_cellSum_counterexample :
    ((ConfusionMatrix.init 1 false).add [2] [0]).map cellSum = .ok 0
      ∧ validTargetPairs 1 [2] [0] = 1 ∧ (0 : Nat) ≠ 1 := by
  refine ⟨?_, by decide, by decide⟩
  rfl

/-- C1 (amended): for every sequence of `add(predicted, target)` calls on a
fresh `ConfusionMatrix` (each `predicted` at least as long as its `target`),
the sum of all cells of the raw matrix equals the total number of pixel pairs
whose target label lies in `[0, num_classes)` **and** whose predicted label
lies in `[0, num_classes]` — a pair whose predicted label falls outside that
range is dropped by the histogram and not counted. -/
theorem c1_cellSum_eq_counted_amended (n : Nat) (bs : List (List Int × List Int))
    (h : ∀ b ∈ bs, b.2.length ≤ b.1.length) :
    ∃ m, runAdds (ConfusionMatrix.init n false) bs = .ok m
      ∧ cellSum m = (bs.map (fun b => countedPairs n b.1 b.2)).sum := by
  obtain ⟨m, hrun, hn, _, hconf⟩ := runAdds_ok bs (ConfusionMatrix.init n false) h
  refine ⟨m, hrun, ?_⟩
  unfold cellSum
  rw [hn]
  rw [Finset.sum_congr rfl (fun t ht => Finset.sum_congr rfl (fun p hp => hconf t p))]
  show (∑ t ∈ Finset.range n, ∑ p ∈ Finset.range n,
      (0 + (bs.map (fun b => histCount n (gatherPairs n b.1 b.2) t p)).sum)) = _
  simp only [Nat.zero_add]
  rw [sum_sum_list n bs (fun b t p => histCount n (gatherPairs n b.1 b.2) t p)]
  simp only [cells_gather_eq_counted]

/-- C1 witness: a concrete two-batch run where the amended count matches. -/
theorem c1_cellSum_witness :
    ∃ m, runAdds (ConfusionMatrix.init 2 false) [([0, 5], [0, 1]), ([1], [1])] = .ok m
      ∧ cellSum m = ([([0, 5], [0, 1]), ([1], [1])].map
          (fun b => countedPairs 2 b.1 b.2)).sum :=
  c1_cellSum_eq_counted_amended 2 [([0, 5], [0, 1]), ([1], [1])] (by decide)

/-- C3 counterexample: `pred` of shape `(2,)` and `target` of shape `(1,)` do
not have the same shape, yet `add` completes normally and records one count:
numpy advanced indexing only fails when a gathered index is out of bounds, so
a `pred` larger than `target` is silently accepted. -/
theorem c3_shape_counterexample :
    ([0, 0] : List Int).length ≠ ([0] : List Int).length
      ∧ ((ConfusionMatrix.init 1 false).add [0, 0] [0]).map (fun m => m.conf 0 0)
          = .ok 1 := by
  refine ⟨by decide, ?_⟩
  rfl

/-- C3 (amended): `add(predicted, target)` fails with an `IndexError` exactly
when some pixel whose target label is valid sits at a position that is out of
bounds for `predicted`; in every other case — including a `predicted` array
strictly larger than `target` — the call completes normally and records
counts. -/
theorem c3_add_error_iff_amended (m : ConfusionMatrix) (pred target : List Int) :
    (∃ e, m.add pred target = .error e)
      ↔ ∃ i, i < target.length ∧ targetValid m.num_classes (target.getD i 0) = true
          ∧ pred.length ≤ i :=
  add_error_iff m pred target

/-- C3 witness: an empty `pred` against a valid one-pixel `target` raises. -/
theorem c3_add_error_witness :
    ∃ e, (ConfusionMatrix.init 1 false).add [] [0] = .error e :=
  (c3_add_error_iff_amended (ConfusionMatrix.init 1 false) [] [0]).mpr
    ⟨0, by decide, by decide, by decide⟩

/-- C7: accumulating a partition of the data into two fresh matrices and
merging them element-wise yields exactly the matrix obtained by accumulating
both parts into one matrix, and the element-wise merge is commutative and
associative. -/
theorem c7_merge_partition (n : Nat) (bs1 bs2 : List (List Int × List Int))
    (h1 : ∀ b ∈ bs1, b.2.length ≤ b.1.length)
    (h2 : ∀ b ∈ bs2, b.2.length ≤ b.1.length) :
    ∃ m1 m2 m12,
      runAdds (ConfusionMatrix.init n false) bs1 = .ok m1
      ∧ runAdds (ConfusionMatrix.init n false) bs2 = .ok m2
      ∧ runAdds (ConfusionMatrix.init n false) (bs1 ++ bs2) = .ok m12
      ∧ (∀ t p, (m1.merge m2).conf t p = m12.conf t p)
      ∧ (∀ a b : ConfusionMatrix, ∀ t p, (a.merge b).conf t p = (b.merge a).conf t p)
      ∧ (∀ a b c : ConfusionMatrix, ∀ t p,
          ((a.merge b).merge c).conf t p = (a.merge (b.merge c)).conf t p) := by
  obtain ⟨m1, hr1, hn1, _, hc1⟩ := runAdds_ok bs1 (ConfusionMatrix.init n false) h1
  obtain ⟨m2, hr2, hn2, _, hc2⟩ := runAdds_ok bs2 (ConfusionMatrix.init n false) h2
  have h12 : ∀ b ∈ bs1 ++ bs2, b.2.length ≤ b.1.length := by
    intro b hb
    rcases List.mem_append.mp hb with hmem | hmem
    · exact h1 b hmem
    · exact h2 b hmem
  obtain ⟨m12, hr12, hn12, _, hc12⟩ := runAdds_ok (bs1 ++ bs2) (ConfusionMatrix.init n false) h12
  refine ⟨m1, m2, m12, hr1, hr2, hr12, ?_, ?_, ?_⟩
  · intro t p
    show m1.conf t p + m2.conf t p = m12.conf t p
    rw [hc1 t p, hc2 t p, hc12 t p, List.map_append, List.sum_append]
    show 0 + _ + (0 + _) = 0 + (_ + _)
    omega
  · intro a b t p
    exact Nat.add_comm _ _
  · intro a b c t p
    exact Nat.add_assoc _ _ _

/-- C7 witness: a concrete partition of four pixels into two batches. -/
theorem c7_merge_witness :
    ∃ m1 m2 m12,
      runAdds (ConfusionMatrix.init 2 false) [([0, 1], [0, 0])] = .ok m1
      ∧ runAdds (ConfusionMatrix.init 2 false) [([1, 1], [1, 0])] = .ok m2
      ∧ runAdds (ConfusionMatrix.init 2 false)
          ([([0, 1], [0, 0])] ++ [([1, 1], [1, 0])]) = .ok m12
      ∧ (∀ t p, (m1.merge m2).conf t p = m12.conf t p)
      ∧ (∀ a b : ConfusionMatrix, ∀ t p, (a.merge b).conf t p = (b.merge a).conf t p)
      ∧ (∀ a b c : ConfusionMatrix, ∀ t p,
          ((a.merge b).merge c).conf t p = (a.merge (b.merge c)).conf t p) :=
  c7_merge_partition 2 [([0, 1], [0, 0])] [([1, 1], [1, 0])] (by decide) (by decide)

/-- C10: in `add`, a pixel pair whose target label is valid but whose predicted
label lies outside `[0, num_classes]` is silently dropped — the call completes
normally and no cell changes — while a predicted label exactly equal to
`num_classes` is counted into column `num_classes - 1` (the right edge of the
last histogram bin is inclusive); neither case raises an error. -/
theorem c10_pred_edge_behavior (m : ConfusionMatrix) (p t : Int)
    (ht0 : 0 ≤ t) (ht : t < (m.num_classes : Int)) :
    ((p < 0 ∨ (m.num_classes : Int) < p) →
      ∃ m2, m.add [p] [t] = .ok m2 ∧ ∀ a b, m2.conf a b = m.conf a b)
    ∧ (p = (m.num_classes : Int) →
      ∃ m2, m.add [p] [t] = .ok m2
        ∧ m2.conf t.toNat (m.num_classes - 1) = m.conf t.toNat (m.num_classes - 1) + 1
        ∧ ∀ a b, ¬(a = t.toNat ∧ b = m.num_classes - 1) → m2.conf a b = m.conf a b) := by
  have hn : m.num_classes ≠ 0 := by omega
  have hok : m.add [p] [t] = .ok (m.addPairs (gatherPairs m.num_classes [p] [t])) :=
    add_ok_of_le m [p] [t] (by simp)
  have hgather : gatherPairs m.num_classes [p] [t] = [(t, p)] := by
    unfold gatherPairs
    simp [targetValid_eq_true_iff, ht0, ht]
  have hbt : binIndex m.num_classes t = some t.toNat := binIndex_of_valid ht0 ht
  constructor
  · intro hout
    refine ⟨m.addPairs (gatherPairs m.num_classes [p] [t]), hok, ?_⟩
    intro a b
    rw [addPairs_conf, hgather, histCount_cons, histCount_nil]
    rw [binIndex_none_of_outside hout]
    simp
  · intro hedge
    refine ⟨m.addPairs (gatherPairs m.num_classes [p] [t]), hok, ?_, ?_⟩
    · rw [addPairs_conf, hgather, histCount_cons, histCount_nil]
      rw [hedge, binIndex_right_edge hn, hbt]
      simp
    · intro a b hab
      rw [addPairs_conf, hgather, histCount_cons, histCount_nil]
      rw [hedge, binIndex_right_edge hn, hbt]
      rw [if_neg ?_]
      · omega
      · intro hc
        apply hab
        obtain ⟨hc1, hc2⟩ := hc
        exact ⟨(Option.some.injEq _ _ ▸ hc1).symm ▸ rfl, by
          have := Option.some.inj hc2
          omega⟩

/-- C10 witness: with `num_classes = 1`, predicted label `2` is dropped and
predicted label `1` lands in column `0`. -/
theorem c10_pred_edge_witness :
    (∃ m2, (ConfusionMatrix.init 1 false).add [2] [0] = .ok m2
      ∧ ∀ a b, m2.conf a b = (ConfusionMatrix.init 1 false).conf a b)
    ∧ (∃ m2, (ConfusionMatrix.init 1 false).add [1] [0] = .ok m2
      ∧ m2.conf 0 0 = (ConfusionMatrix.init 1 false).conf 0 0 + 1
      ∧ ∀ a b, ¬(a = 0 ∧ b = 0) → m2.conf a b = (ConfusionMatrix.init 1 false).conf a b) :=
  ⟨(c10_pred_edge_behavior (ConfusionMatrix.init 1 false) 2 0 (by decide) (by decide)).1
      (by decide),
   (c10_pred_edge_behavior (ConfusionMatrix.init 1 false) 1 0 (by decide) (by decide)).2
      (by decide)⟩

/-- C6: with `reduced_probs=False`, adding a probability/logit prediction `pred`
produces the same confusion-matrix state as first taking the arg-max of `pred`
over its class dimension and adding the result to an instance with
`reduced_probs=True`; `target` is used unchanged in both cases. -/
theorem c6_argmax_refinement (cm : ConfusionMatrix) (ig : Option (List Nat))
    (rows : List (List ℚ)) (target : List Int) :
    (ConfusionMatrixBasedMetric.add ⟨cm, false, ig⟩ (.scored rows) target).map
        (fun m => m.conf_matrix)
      = (ConfusionMatrixBasedMetric.add ⟨cm, true, ig⟩
          (.discrete (rows.map (fun r => ((argmaxIdx r : Nat) : Int)))) target).map
          (fun m => m.conf_matrix) := by
  unfold ConfusionMatrixBasedMetric.add
  simp only [PredTensor.argmaxReduce]
  cases h : cm.add (rows.map (fun r => ((argmaxIdx r : Nat) : Int))) target <;>
    simp [h, Except.map]

/-- C9 counterexample: `ignore_indices = (0.5,)` — an iterable whose element is
not an integer, hence a value that is neither an integer nor an iterable of
integers — is accepted by the constructor without any error, because
`tuple(...)` succeeds on every iterable regardless of its elements. -/
theorem c9_ignore_counterexample :
    parseIgnoreIndices (.pyIter [.pyFloat (1/2)]) = .ok (some [.pyFloat (1/2)])
      ∧ (∀ i : Int, PyVal.pyIter [PyVal.pyFloat (1/2)] ≠ .pyInt i)
      ∧ ¬(∀ e ∈ [PyVal.pyFloat (1/2)], ∃ i : Int, e = .pyInt i) := by
  refine ⟨rfl, ?_, ?_⟩
  · intro i h
    cases h
  · intro h
    obtain ⟨i, hi⟩ := h (PyVal.pyFloat (1/2)) (by simp)
    cases hi

/-- C9 (amended): construction raises the configuration error exactly when
`ignore_indices` is neither `None`, an integer, nor an iterable; in particular
`None`, any integer and **any** iterable — its elements are never checked —
are accepted. -/
theorem c9_ignore_amended (v : PyVal) :
    (∃ e, parseIgnoreIndices v = .error e)
      ↔ (v ≠ .pyNone ∧ (∀ i : Int, v ≠ .pyInt i) ∧ ∀ l, v ≠ .pyIter l) := by
  cases v <;> simp [parseIgnoreIndices]

/-- C9 witness: a bare float raises; `None`, an int and an iterable do not. -/
theorem c9_ignore_witness :
    ∃ e, parseIgnoreIndices (.pyFloat (1/2)) = .error e := by
  apply (c9_ignore_amended (.pyFloat (1/2))).mpr
  refine ⟨?_, ?_, ?_⟩
  · intro h
    cases h
  · intro i h
    cases h
  · intro l h
    cases h

/-- C8: with `normalized=True`, `value` divides each row of the raw counts by
`max(row_sum, 1e-12)`: every row with at least one nonzero count sums to
exactly 1, and every all-zero row stays all zero.  (Stated exactly over `ℚ`;
the float computation agrees within floating tolerance.) -/
theorem c8_normalized_rows (m : ConfusionMatrix) (t : Nat) :
    ((∃ p ∈ Finset.range m.num_classes, m.conf t p ≠ 0) →
      (∑ p ∈ Finset.range m.num_classes, m.valueNorm t p) = 1)
    ∧ ((∀ p ∈ Finset.range m.num_classes, m.conf t p = 0) →
      ∀ p, p < m.num_classes → m.valueNorm t p = 0) := by
  constructor
  · rintro ⟨p0, hp0, hnz⟩
    have hrs : 1 ≤ rowSumNat m t := by
      have hle : m.conf t p0 ≤ rowSumNat m t :=
        Finset.single_le_sum (f := fun p => m.conf t p) (fun _ _ => Nat.zero_le _) hp0
      omega
    have hQ : (1 : ℚ) ≤ (rowSumNat m t : ℚ) := by exact_mod_cast hrs
    have heps : epsNorm ≤ ((rowSumNat m t : ℚ)) := le_trans (by norm_num [epsNorm]) hQ
    have hmax : max ((rowSumNat m t : ℚ)) epsNorm = (rowSumNat m t : ℚ) := max_eq_left heps
    have hne : ((rowSumNat m t : ℚ)) ≠ 0 := by
      intro hzero
      rw [hzero] at hQ
      norm_num at hQ
    unfold ConfusionMatrix.valueNorm
    rw [Finset.sum_congr rfl (fun p _ => by rw [hmax])]
    rw [← Finset.sum_div, div_eq_one_iff_eq hne]
    unfold rowSumNat
    exact (Nat.cast_sum _ _).symm
  · intro hz p hp
    unfold ConfusionMatrix.valueNorm
    rw [hz p (Finset.mem_range.mpr hp)]
    simp

/-- A one-pixel normalized matrix used to witness C8. -/
def w8matrix : ConfusionMatrix :=
  (ConfusionMatrix.init 2 true).addPairs [((0 : Int), (0 : Int))]

/-- C8 witness: in a 2-class normalized matrix holding one count at `(0,0)`,
row 0 sums to 1 and the all-zero row 1 stays zero. -/
theorem c8_normalized_witness :
    ((∑ p ∈ Finset.range 2, w8matrix.valueNorm 0 p) = 1)
      ∧ w8matrix.valueNorm 1 0 = 0 :=
  ⟨(c8_normalized_rows w8matrix 0).1 ⟨0, by decide, by decide⟩,
   (c8_normalized_rows w8matrix 1).2 (by decide) 0 (by decide)⟩

/-- C2: the source violates the claim that `DiceCoefficient.value` leaves the
accumulated counts unchanged.  With `normalized=False`,
`self.conf_matrix.value()` returns the internal count array itself, so when
`ignore_indices` is set the ignore-zeroing writes through: after one `add` of
`pred=[0,1], target=[0,1]` into a 2-class matrix, the cell `(0,0)` holds 1,
and a single `value()` call on a `DiceCoefficient` with `ignore_indices=(0,)`
resets it to 0. -/
theorem c2_value_mutates_counts :
    ((ConfusionMatrix.init 2 false).add [0, 1] [0, 1]).map (fun cm =>
      (cm.conf 0 0,
        ((DiceCoefficient.value ⟨cm, true, some [0]⟩).2.2).conf_matrix.conf 0 0))
      = .ok (1, 0) := by
  rfl

lemma workBase_nonneg (m : ConfusionMatrixBasedMetric) (t p : Nat) :
    0 ≤ workBase m t p := by
  unfold workBase
  split
  · unfold ConfusionMatrix.valueNorm
    apply div_nonneg
    · positivity
    · have heps : (0 : ℚ) < epsNorm := by norm_num [epsNorm]
      have := le_max_right ((rowSumNat m.conf_matrix t : ℚ)) epsNorm
      linarith
  · positivity

lemma workMatrix_nonneg (m : ConfusionMatrixBasedMetric) (t p : Nat) :
    0 ≤ workMatrix m t p := by
  unfold workMatrix
  cases m.ignore_indices with
  | none => exact workBase_nonneg m t p
  | some ign =>
    by_cases hmem : t ∈ ign ∨ p ∈ ign
    · simp [hmem]
    · simp [hmem, workBase_nonneg m t p]

/-- The Dice denominator rewrites to the sum of the column sum and the row sum
of the working matrix at the class. -/
lemma dice_denom_eq (m : ConfusionMatrixBasedMetric) (c : Nat) :
    2 * true_positive m c + false_positive m c + false_negative m c
      = (∑ t ∈ Finset.range m.conf_matrix.num_classes, workMatrix m t c)
        + (∑ p ∈ Finset.range m.conf_matrix.num_classes, workMatrix m c p) := by
  simp only [true_positive, false_positive, false_negative]
  ring

lemma filterMap_id_filter_isSome (l : List (Option ℚ)) :
    (l.filter (fun o => o.isSome)).filterMap id = l.filterMap id := by
  induction l with
  | nil => rfl
  | cons x xs ih => cases x <;> simp [ih]

/-- C4: for every confusion-matrix state and every setting of the flags,
`DiceCoefficient.value` is total ("never raises"): a class `c` with zero true
positives, false positives and false negatives yields exactly the NaN entry
`dice[c] = none` in the per-class output, and every NaN entry of the averaged
list is excluded from the mean as missing (filtering the NaN entries away does
not change `nanmean`), not treated as zero. -/
theorem c4_nan_class_excluded (m : ConfusionMatrixBasedMetric) (c : Nat)
    (hc : c < m.conf_matrix.num_classes)
    (h : true_positive m c = 0 ∧ false_positive m c = 0 ∧ false_negative m c = 0) :
    (dicePerClass m).getD c (some 0) = none
    ∧ (diceAt m c = none
        ↔ (true_positive m c = 0 ∧ false_positive m c = 0 ∧ false_negative m c = 0))
    ∧ nanmean (diceValidCls m) = nanmean ((diceValidCls m).filter (fun o => o.isSome)) := by
  have hiff : diceAt m c = none
      ↔ (true_positive m c = 0 ∧ false_positive m c = 0 ∧ false_negative m c = 0) := by
    unfold diceAt
    constructor
    · intro hnone
      by_cases hd : 2 * true_positive m c + false_positive m c + false_negative m c = 0
      · rw [dice_denom_eq] at hd
        have hcol0 : 0 ≤ ∑ t ∈ Finset.range m.conf_matrix.num_classes, workMatrix m t c :=
          Finset.sum_nonneg (fun i _ => workMatrix_nonneg m i c)
        have hrow0 : 0 ≤ ∑ p ∈ Finset.range m.conf_matrix.num_classes, workMatrix m c p :=
          Finset.sum_nonneg (fun i _ => workMatrix_nonneg m c i)
        have hcol : (∑ t ∈ Finset.range m.conf_matrix.num_classes, workMatrix m t c) = 0 := by
          linarith
        have hrow : (∑ p ∈ Finset.range m.conf_matrix.num_classes, workMatrix m c p) = 0 := by
          linarith
        have hWcol : ∀ t ∈ Finset.range m.conf_matrix.num_classes, workMatrix m t c = 0 :=
          (Finset.sum_eq_zero_iff_of_nonneg (fun i _ => workMatrix_nonneg m i c)).mp hcol
        have hTP : true_positive m c = 0 := hWcol c (Finset.mem_range.mpr hc)
        refine ⟨hTP, ?_, ?_⟩
        · unfold false_positive
          rw [hcol, hTP]
          ring
        · unfold false_negative
          rw [hrow, hTP]
          ring
      · rw [if_neg hd] at hnone
        exact absurd hnone (by simp)
    · rintro ⟨h1, h2, h3⟩
      rw [h1, h2, h3]
      norm_num
  refine ⟨?_, hiff, ?_⟩
  · have hgetD : (dicePerClass m).getD c (some 0) = diceAt m c := by
      simp [dicePerClass, List.getD_eq_getElem?_getD, List.getElem?_map,
        List.getElem?_range, hc]
    rw [hgetD]
    exact hiff.mpr h
  · unfold nanmean
    rw [filterMap_id_filter_isSome]

/-- A 2-class metric state in which class 0 never occurs, witnessing C4. -/
def w4metric : ConfusionMatrixBasedMetric :=
  ⟨(ConfusionMatrix.init 2 false).addPairs [((1 : Int), (1 : Int))], true, none⟩

/-- C4 witness: class 0 of `w4metric` has zero TP, FP and FN; its dice entry is
NaN and the mean is unaffected by dropping NaN entries. -/
theorem c4_nan_witness :
    (dicePerClass w4metric).getD 0 (some 0) = none
    ∧ (diceAt w4metric 0 = none
        ↔ (true_positive w4metric 0 = 0 ∧ false_positive w4metric 0 = 0
            ∧ false_negative w4metric 0 = 0))
    ∧ nanmean (diceValidCls w4metric)
        = nanmean ((diceValidCls w4metric).filter (fun o => o.isSome)) :=
  c4_nan_class_excluded w4metric 0 (by decide) (by
    refine ⟨?_, ?_, ?_⟩ <;>
      simp [true_positive, false_positive, false_negative, workMatrix, workBase,
        w4metric, ConfusionMatrix.addPairs, ConfusionMatrix.init,
        ConfusionMatrix.valueNorm, histCount, binIndex, Finset.sum_range_succ])

/-- Number of pixels of a label list falling into histogram bin `t`. -/
def binCount (n : Nat) (l : List Int) (t : Nat) : Nat :=
  (l.filter (fun x => binIndex n x == some t)).length

lemma histCount_cons_pair (n : Nat) (a b : Int) (l : List (Int × Int)) (t p : Nat) :
    histCount n ((a, b) :: l) t p
      = (if binIndex n a = some t ∧ binIndex n b = some p then 1 else 0)
        + histCount n l t p :=
  histCount_cons n (a, b) l t p

/-- The histogram of a list zipped with itself is diagonal: cell `(t, p)` is
empty off the diagonal and holds the bin-`t` pixel count on it. -/
lemma histCount_zip_self (n : Nat) (l : List Int) (t p : Nat) :
    histCount n (l.zip l) t p = if t = p then binCount n l t else 0 := by
  induction l with
  | nil =>
    unfold binCount
    simp [histCount_nil]
  | cons x xs ih =>
    have hz : (x :: xs).zip (x :: xs) = (x, x) :: xs.zip xs := rfl
    rw [hz, histCount_cons_pair, ih]
    by_cases htp : t = p
    · subst htp
      unfold binCount
      rw [List.filter_cons]
      by_cases hx : binIndex n x = some t
      · simp [hx, Nat.add_comm]
      · simp [hx]
    · have hne : ¬(binIndex n x = some t ∧ binIndex n x = some p) := by
        rintro ⟨h1, h2⟩
        rw [h1] at h2
        exact htp (Option.some.inj h2)
      rw [if_neg hne, if_neg htp, if_neg htp, Nat.zero_add]

lemma filterMap_id_replicate_some (k : Nat) (q : ℚ) :
    (List.replicate k (some q)).filterMap id = List.replicate k q := by
  induction k with
  | zero => rfl
  | succ k ih => simp [List.replicate_succ, ih]

/-- C5: if `predicted` equals `target` at every pixel, every label is in
`[0, num_classes)` and every class occurs at least once in `target`, then
after one `add` on a fresh `DiceCoefficient` (discrete labels, raw counts, no
ignored classes) the per-class Dice coefficient is exactly 1 for every class
and the mean Dice is exactly 1. -/
theorem c5_perfect_prediction (n : Nat) (hn : 0 < n) (labels : List Int)
    (hval : ∀ x ∈ labels, 0 ≤ x ∧ x < (n : Int))
    (hcov : ∀ c ∈ Finset.range n, ∃ x ∈ labels, x.toNat = c) :
    ∃ m2 : ConfusionMatrixBasedMetric,
      ConfusionMatrixBasedMetric.add ⟨ConfusionMatrix.init n false, true, none⟩
          (.discrete labels) labels = .ok m2
      ∧ (∀ c, c < n → diceAt m2 c = some 1)
      ∧ (DiceCoefficient.value m2).1 = some 1
      ∧ (DiceCoefficient.value m2).2.1 = List.replicate n (some 1) := by
  set cm2 : ConfusionMatrix :=
    (ConfusionMatrix.init n false).addPairs (gatherPairs n labels labels) with hcm2
  set m2 : ConfusionMatrixBasedMetric := ⟨cm2, true, none⟩ with hm2
  have hnc : m2.conf_matrix.num_classes = n := rfl
  have hadd : ConfusionMatrixBasedMetric.add ⟨ConfusionMatrix.init n false, true, none⟩
      (.discrete labels) labels = .ok m2 := by
    unfold ConfusionMatrixBasedMetric.add
    simp only [if_true]
    rw [add_ok_of_le (ConfusionMatrix.init n false) labels labels (le_refl _)]
    rfl
  have hfil : gatherPairs n labels labels = labels.zip labels := by
    unfold gatherPairs
    apply List.filter_eq_self.mpr
    intro tp htp
    rcases tp with ⟨a, b⟩
    have hmem : a ∈ labels := (List.of_mem_zip htp).1
    obtain ⟨h0, h1⟩ := hval a hmem
    rw [targetValid_eq_true_iff]
    exact ⟨h0, h1⟩
  have hconf : ∀ t p, cm2.conf t p = if t = p then binCount n labels t else 0 := by
    intro t p
    rw [hcm2, addPairs_conf, hfil]
    show 0 + histCount n (labels.zip labels) t p = _
    rw [Nat.zero_add, histCount_zip_self]
  have hW : ∀ t p, workMatrix m2 t p
      = ((if t = p then binCount n labels t else 0 : Nat) : ℚ) := by
    intro t p
    show workBase m2 t p = _
    unfold workBase
    have hnorm : m2.conf_matrix.normalized = false := rfl
    rw [hnorm]
    simp only [Bool.false_eq_true, if_false]
    rw [hconf t p]
  have hbcpos : ∀ c, c < n → 1 ≤ binCount n labels c := by
    intro c hc
    obtain ⟨x, hx, hxc⟩ := hcov c (Finset.mem_range.mpr hc)
    obtain ⟨h0, h1⟩ := hval x hx
    have hb : binIndex n x = some c := by
      rw [binIndex_of_valid h0 h1, hxc]
    have hmem : x ∈ labels.filter (fun y => binIndex n y == some c) :=
      List.mem_filter.mpr ⟨hx, by rw [hb]; exact beq_self_eq_true _⟩
    have hpos : 0 < (labels.filter (fun y => binIndex n y == some c)).length :=
      List.length_pos.mpr (List.ne_nil_of_mem hmem)
    unfold binCount
    omega
  have hTP : ∀ c, c < n → true_positive m2 c = (binCount n labels c : ℚ) := by
    intro c _
    unfold true_positive
    rw [hW c c]
    simp
  have hcolsum : ∀ c, c < n →
      (∑ t ∈ Finset.range n, workMatrix m2 t c) = (binCount n labels c : ℚ) := by
    intro c hc
    rw [Finset.sum_congr rfl (fun t _ => hW t c)]
    rw [Finset.sum_congr rfl (fun t _ => Nat.cast_ite _ _ _)]
    simp only [Nat.cast_zero]
    rw [Finset.sum_ite_eq' (Finset.range n) c (fun t => ((binCount n labels t : Nat) : ℚ))]
    simp [Finset.mem_range.mpr hc]
  have hrowsum : ∀ c, c < n →
      (∑ p ∈ Finset.range n, workMatrix m2 c p) = (binCount n labels c : ℚ) := by
    intro c hc
    rw [Finset.sum_congr rfl (fun p _ => hW c p)]
    rw [Finset.sum_congr rfl (fun p _ => Nat.cast_ite _ _ _)]
    simp only [Nat.cast_zero]
    rw [Finset.sum_ite_eq (Finset.range n) c (fun _ => ((binCount n labels c : Nat) : ℚ))]
    simp [Finset.mem_range.mpr hc]
  have hFP : ∀ c, c < n → false_positive m2 c = 0 := by
    intro c hc
    unfold false_positive
    rw [hnc, hcolsum c hc, hTP c hc]
    ring
  have hFN : ∀ c, c < n → false_negative m2 c = 0 := by
    intro c hc
    unfold false_negative
    rw [hnc, hrowsum c hc, hTP c hc]
    ring
  have hdiceAt : ∀ c, c < n → diceAt m2 c = some 1 := by
    intro c hc
    have hbc : (0 : ℚ) < (binCount n labels c : ℚ) := by
      exact_mod_cast hbcpos c hc
    have hd2 : 2 * true_positive m2 c + false_positive m2 c + false_negative m2 c
        = 2 * (binCount n labels c : ℚ) := by
      rw [hTP c hc, hFP c hc, hFN c hc]
      ring
    have hdne : 2 * (binCount n labels c : ℚ) ≠ 0 :=
      mul_ne_zero two_ne_zero (ne_of_gt hbc)
    unfold diceAt
    rw [hd2, if_neg hdne, hTP c hc, div_self hdne]
  have hlist : dicePerClass m2 = List.replicate n (some (1 : ℚ)) := by
    unfold dicePerClass
    rw [hnc]
    refine List.eq_replicate_iff.mpr ⟨by simp, ?_⟩
    intro b hb
    obtain ⟨c, hcmem, rfl⟩ := List.mem_map.mp hb
    exact hdiceAt c (List.mem_range.mp hcmem)
  have hvalid : diceValidCls m2 = List.replicate n (some (1 : ℚ)) := by
    have : diceValidCls m2 = dicePerClass m2 := rfl
    rw [this, hlist]
  have hmean : nanmean (diceValidCls m2) = some 1 := by
    rw [hvalid]
    unfold nanmean
    rw [filterMap_id_replicate_some, List.length_replicate, List.sum_replicate]
    rw [if_neg (by omega : ¬(n = 0))]
    have hcast : ((n : ℚ)) ≠ 0 := Nat.cast_ne_zero.mpr (by omega)
    rw [nsmul_eq_mul, mul_one, div_self hcast]
  refine ⟨m2, hadd, hdiceAt, ?_, ?_⟩
  · show nanmean (diceValidCls m2) = some 1
    exact hmean
  · show dicePerClass m2 = _
    exact hlist

/-- C5 witness: two pixels, labels `[0, 1]`, two classes, perfect prediction. -/
theorem c5_perfect_witness :
    ∃ m2 : ConfusionMatrixBasedMetric,
      ConfusionMatrixBasedMetric.add ⟨ConfusionMatrix.init 2 false, true, none⟩
          (.discrete [0, 1]) [0, 1] = .ok m2
      ∧ (∀ c, c < 2 → diceAt m2 c = some 1)
      ∧ (DiceCoefficient.value m2).1 = some 1
      ∧ (DiceCoefficient.value m2).2.1 = List.replicate 2 (some 1) :=
  c5_perfect_prediction 2 (by decide) [0, 1] (by decide) (by decide)

end DiceMetric
